import Mathlib

/-!
Shallow embedding of thermo/eos_mix_methods.py over the real numbers.

Python floats are modelled as real numbers, `x ** 0.5` as `Real.sqrt x`,
`math.log` as `Real.log`, and `math.sqrt` as `Real.sqrt`.  Imperative loops
that accumulate into a scalar become finite sums over the visited index
ranges; loops that fill a matrix are modelled by the value each entry holds
after the loop finishes.  The cubic-volume root solver
(thermo.eos_volume.volume_solutions_halley) is an external dependency of the
module and is modelled as an opaque function parameter returning the three
roots it produces.
-/

namespace Thermo

noncomputable section

open Finset

/-- Molar gas constant R imported from fluids.constants. -/
def R : ℝ := 8.31446261815324

/-- Module-level constant R2 = R*R. -/
def R2 : ℝ := R * R

/-- Module-level constant R_inv = 1.0/R. -/
def R_inv : ℝ := 1 / R

/-- Module-level constant R2_inv = R_inv*R_inv. -/
def R2_inv : ℝ := R_inv * R_inv

/-- Module-level constant root_two = sqrt(2.). -/
def root_two : ℝ := Real.sqrt 2

/-- The vector a_alpha_i_roots built by a_alpha_aijs_composition_independent
(eos_mix_methods.py line 48): entry i is a_alphas[i] ** 0.5. -/
def a_alpha_i_roots {N : ℕ} (a_alphas : Fin N → ℝ) : Fin N → ℝ :=
  fun i => Real.sqrt (a_alphas i)

/-- Entry (i, j) of the matrix a_alpha_ijs filled by the double loop of
a_alpha_aijs_composition_independent (lines 54-69).  The loop visits each
pair (p, q) with p ≤ q, computes term = roots[p]*roots[q], and writes
(1 - kijs[p][q])*term to both mirror positions (p, q) and (q, p); hence the
entry at (i, j) was produced by the visit to (min i j, max i j). -/
def a_alpha_ijs {N : ℕ} (a_alphas : Fin N → ℝ) (kijs : Fin N → Fin N → ℝ) :
    Fin N → Fin N → ℝ :=
  fun i j =>
    if i ≤ j then
      (1 - kijs i j) * (Real.sqrt (a_alphas i) * Real.sqrt (a_alphas j))
    else
      (1 - kijs j i) * (Real.sqrt (a_alphas j) * Real.sqrt (a_alphas i))

/-- Entry (i, j) of the matrix a_alpha_ij_roots_inv filled by
a_alpha_aijs_composition_independent (lines 52-68): the loop writes
1.0/(roots[i]*roots[j]) only at the positions with i ≤ j; every other entry
keeps the initial 0.0. -/
def a_alpha_ij_roots_inv {N : ℕ} (a_alphas : Fin N → ℝ) :
    Fin N → Fin N → ℝ :=
  fun i j =>
    if i ≤ j then 1 / (Real.sqrt (a_alphas i) * Real.sqrt (a_alphas j))
    else 0

/-- The root vector of a_alpha_aijs_composition_independent_support_zeros
(line 79), identical to the plain version. -/
def a_alpha_i_roots_sz {N : ℕ} (a_alphas : Fin N → ℝ) : Fin N → ℝ :=
  fun i => Real.sqrt (a_alphas i)

/-- The pairwise matrix of a_alpha_aijs_composition_independent_support_zeros
(lines 82-94); the assignment is the same as in the plain version. -/
def a_alpha_ijs_sz {N : ℕ} (a_alphas : Fin N → ℝ) (kijs : Fin N → Fin N → ℝ) :
    Fin N → Fin N → ℝ :=
  fun i j =>
    if i ≤ j then
      (1 - kijs i j) * (Real.sqrt (a_alphas i) * Real.sqrt (a_alphas j))
    else
      (1 - kijs j i) * (Real.sqrt (a_alphas j) * Real.sqrt (a_alphas i))

/-- The reciprocal-root matrix of
a_alpha_aijs_composition_independent_support_zeros (lines 88-93): for i ≤ j
the code tries 1.0/term and substitutes 1e100 on a ZeroDivisionError, which
fires exactly when term = roots[i]*roots[j] is zero; the strict lower
triangle keeps the initial 0.0. -/
def a_alpha_ij_roots_inv_sz {N : ℕ} (a_alphas : Fin N → ℝ) :
    Fin N → Fin N → ℝ :=
  fun i j =>
    if i ≤ j then
      (if Real.sqrt (a_alphas i) * Real.sqrt (a_alphas j) = 0 then 1e100
       else 1 / (Real.sqrt (a_alphas i) * Real.sqrt (a_alphas j)))
    else 0

/-- The row vector a_alpha_j_rows of a_alpha_quadratic_terms
(lines 267-291).  The first while loop accumulates, for each index i, the
quantities (1 - kijs[p][i])*things0[p] over p > i and
(1 - kijs[i][j])*things0[j] over j < i, where things0[j] = roots[j]*zs[j];
the final loop multiplies that partial row by roots[i] and adds the diagonal
term (1 - kijs[i][i])*a_alphas[i]*zs[i]. -/
def a_alpha_quadratic_rows {N : ℕ} (a_alphas a_alpha_i_roots : Fin N → ℝ)
    (zs : Fin N → ℝ) (kijs : Fin N → Fin N → ℝ) : Fin N → ℝ :=
  fun i =>
    ((∑ j ∈ Finset.filter (fun j => j < i) Finset.univ,
        (1 - kijs i j) * (a_alpha_i_roots j * zs j))
      + ∑ j ∈ Finset.filter (fun j => i < j) Finset.univ,
        (1 - kijs j i) * (a_alpha_i_roots j * zs j)) * a_alpha_i_roots i
    + (1 - kijs i i) * a_alphas i * zs i

/-- The scalar a_alpha of a_alpha_quadratic_terms (line 289): the dot
product of the finished rows with zs. -/
def a_alpha_quadratic_total {N : ℕ} (a_alphas a_alpha_i_roots : Fin N → ℝ)
    (zs : Fin N → ℝ) (kijs : Fin N → Fin N → ℝ) : ℝ :=
  ∑ i, a_alpha_quadratic_rows a_alphas a_alpha_i_roots zs kijs i * zs i

/-- The function a_alpha_quadratic_terms (lines 204-291), returning the
mixture a_alpha and the row sums.  The temperature argument is unused by the
source. -/
def a_alpha_quadratic_terms {N : ℕ} (a_alphas a_alpha_i_roots : Fin N → ℝ)
    (T : ℝ) (zs : Fin N → ℝ) (kijs : Fin N → Fin N → ℝ) :
    ℝ × (Fin N → ℝ) :=
  (a_alpha_quadratic_total a_alphas a_alpha_i_roots zs kijs,
   a_alpha_quadratic_rows a_alphas a_alpha_i_roots zs kijs)

/-- The function PR_lnphis (lines 374-391), with the loop body as the value
of component i. -/
def PR_lnphis {N : ℕ} (T P Z b a_alpha : ℝ)
    (zs bs a_alpha_j_rows : Fin N → ℝ) : Fin N → ℝ :=
  fun i =>
    let T_inv := 1 / T
    let P_T := P * T_inv
    let A := a_alpha * P_T * R2_inv * T_inv
    let B := b * P_T * R_inv
    let x0 := Real.log (Z - B)
    let root_two_B := B * root_two
    let two_root_two_B := root_two_B + root_two_B
    let ZB := Z + B
    let x4 := A * Real.log ((ZB + root_two_B) / (ZB - root_two_B))
    let t50 := (x4 + x4) / (a_alpha * two_root_two_B)
    let t51 := (x4 + (Z - 1) * two_root_two_B) / (b * two_root_two_B)
    bs i * t51 - x0 - t50 * a_alpha_j_rows i

/-- The root-selection branch of PR_lnphis_fastest (lines 406-420) applied
to the three solver roots: with the liquid flag the two conditional
reassignments move V0 down to a smaller root exceeding b, with the gas flag
up to a larger root exceeding b, and with neither flag the function raises
ValueError, modelled as none. -/
def PR_select_root (l g : Bool) (b V0 V1 V2 : ℝ) : Option ℝ :=
  if l then
    some (if V1 ≠ 0 then
      (let V0a := if V0 > V1 ∧ V1 > b then V1 else V0
       if V0a > V2 ∧ V2 > b then V2 else V0a)
    else V0)
  else if g then
    some (if V1 ≠ 0 then
      (let V0b := if V0 < V1 ∧ V1 > b then V1 else V0
       if V0b < V2 ∧ V2 > b then V2 else V0b)
    else V0)
  else none

/-- The function PR_lnphis_fastest (lines 394-422).  The external cubic
volume solver volume_solutions_halley is passed in as an opaque function
returning its three roots; the ValueError raise propagates as none. -/
def PR_lnphis_fastest {N : ℕ}
    (solver : ℝ → ℝ → ℝ → ℝ → ℝ → ℝ → ℝ × ℝ × ℝ)
    (zs : Fin N → ℝ) (T P : ℝ) (kijs : Fin N → Fin N → ℝ) (l g : Bool)
    (ais bs a_alphas a_alpha_i_roots kappas : Fin N → ℝ) :
    Option (Fin N → ℝ) :=
  let b := ∑ i, bs i * zs i
  let delta := 2 * b
  let epsilon := -b * b
  let q := a_alpha_quadratic_terms a_alphas a_alpha_i_roots T zs kijs
  let V := solver T P b delta epsilon q.1
  (PR_select_root l g b V.1 V.2.1 V.2.2).map
    (fun V0 => PR_lnphis T P (P * V0 / (R * T)) b q.1 zs bs q.2)

/-- The scalar a_alpha accumulated by a_alpha_and_derivatives_full
(lines 134-141): for each i, the terms with j < i are added twice and the
diagonal term once, with z_products[i][j] = zs[i]*zs[j]. -/
def a_alpha_full {N : ℕ} (a_alphas zs : Fin N → ℝ)
    (kijs : Fin N → Fin N → ℝ) : ℝ :=
  ∑ i, ((∑ j ∈ Finset.filter (fun j => j < i) Finset.univ,
      (a_alpha_ijs a_alphas kijs i j * (zs i * zs j)
        + a_alpha_ijs a_alphas kijs i j * (zs i * zs j)))
    + a_alpha_ijs a_alphas kijs i i * (zs i * zs i))

/-- The per-pair term da_alpha_dT_ij of a_alpha_and_derivatives_full
(lines 168-179) after the zi_zj multiplication:
-0.5*(kijs[i][j]-1)*(a_alphas[i]*da[j] + a_alphas[j]*da[i]) times the stored
inverse pairwise root and zs[i]*zs[j]. -/
def da_full_term {N : ℕ} (a_alphas da_alpha_dTs zs : Fin N → ℝ)
    (kijs : Fin N → Fin N → ℝ) (i j : Fin N) : ℝ :=
  -0.5 * (kijs i j - 1)
    * (a_alphas i * da_alpha_dTs j + a_alphas j * da_alpha_dTs i)
    * a_alpha_ij_roots_inv a_alphas i j * (zs i * zs j)

/-- The scalar da_alpha_dT accumulated by a_alpha_and_derivatives_full
(lines 149-197): the loop visits pairs with j ≥ i and doubles every
off-diagonal contribution. -/
def da_alpha_dT_full {N : ℕ} (a_alphas da_alpha_dTs zs : Fin N → ℝ)
    (kijs : Fin N → Fin N → ℝ) : ℝ :=
  ∑ i, ∑ j ∈ Finset.filter (fun j => i ≤ j) Finset.univ,
    (if i = j then da_full_term a_alphas da_alpha_dTs zs kijs i j
     else da_full_term a_alphas da_alpha_dTs zs kijs i j
       + da_full_term a_alphas da_alpha_dTs zs kijs i j)

/-- The per-pair term d2a_alpha_dT2_ij of a_alpha_and_derivatives_full
(lines 182-190) after the zi_zj multiplication, with x0 = a_alphas[i]*a_alphas[j]
and x0_05_inv the stored inverse pairwise root. -/
def d2_full_term {N : ℕ} (a_alphas da_alpha_dTs d2a_alpha_dT2s zs : Fin N → ℝ)
    (kijs : Fin N → Fin N → ℝ) (i j : Fin N) : ℝ :=
  (kijs i j - 1) *
    ((a_alphas i * a_alphas j
        * (-0.5 * (a_alphas i * d2a_alpha_dT2s j + a_alphas j * d2a_alpha_dT2s i)
          - da_alpha_dTs i * da_alpha_dTs j)
      + 0.25 * (a_alphas i * da_alpha_dTs j + a_alphas j * da_alpha_dTs i)
        * (a_alphas i * da_alpha_dTs j + a_alphas j * da_alpha_dTs i))
    / (a_alpha_ij_roots_inv a_alphas i j * (a_alphas i * a_alphas j)
        * (a_alphas i * a_alphas j))) * (zs i * zs j)

/-- The scalar d2a_alpha_dT2 accumulated by a_alpha_and_derivatives_full
(lines 149-197): pairs with j ≥ i, off-diagonal contributions doubled. -/
def d2a_alpha_dT2_full {N : ℕ}
    (a_alphas da_alpha_dTs d2a_alpha_dT2s zs : Fin N → ℝ)
    (kijs : Fin N → Fin N → ℝ) : ℝ :=
  ∑ i, ∑ j ∈ Finset.filter (fun j => i ≤ j) Finset.univ,
    (if i = j then d2_full_term a_alphas da_alpha_dTs d2a_alpha_dT2s zs kijs i j
     else d2_full_term a_alphas da_alpha_dTs d2a_alpha_dT2s zs kijs i j
       + d2_full_term a_alphas da_alpha_dTs d2a_alpha_dT2s zs kijs i j)

/-- The scalar a_alpha accumulated by
a_alpha_and_derivatives_quadratic_terms (lines 316-324 and 359-361): for
j < i the term (1-kijs[i][j])*v0*zs[i]*zs[j] with v0 = roots[i]*roots[j] is
added twice; the diagonal contributes a_alphas[i]*zs[i]*zs[i] with the
binary coefficient hard-coded to zero. -/
def a_alpha_quad {N : ℕ} (a_alphas a_alpha_i_roots zs : Fin N → ℝ)
    (kijs : Fin N → Fin N → ℝ) : ℝ :=
  ∑ i, ((∑ j ∈ Finset.filter (fun j => j < i) Finset.univ,
      ((1 - kijs i j) * (a_alpha_i_roots i * a_alpha_i_roots j) * zs i * zs j
        + (1 - kijs i j) * (a_alpha_i_roots i * a_alpha_i_roots j) * zs i * zs j))
    + a_alphas i * zs i * zs i)

/-- The running sum workingd1 of a_alpha_and_derivatives_quadratic_terms at
the end of the inner loop for row i (lines 330-343 and 353): the off-diagonal
first-derivative contributions before the final -0.5 factor. -/
def workingd1 {N : ℕ} (a_alphas a_alpha_i_roots da_alpha_dTs zs : Fin N → ℝ)
    (kijs : Fin N → Fin N → ℝ) (i : Fin N) : ℝ :=
  ∑ j ∈ Finset.filter (fun j => j < i) Finset.univ,
    (a_alphas i * da_alpha_dTs j + a_alphas j * da_alpha_dTs i)
      * ((kijs i j - 1) * (1 / (a_alpha_i_roots i * a_alpha_i_roots j)))
      * (zs i * zs j)

/-- The scalar da_alpha_dT accumulated by
a_alpha_and_derivatives_quadratic_terms (lines 363-366): per row i the code
subtracts 0.5 times the diagonal term (-da[i]-da[i])*zs[i]*zs[i] plus twice
workingd1. -/
def da_alpha_dT_quad {N : ℕ}
    (a_alphas a_alpha_i_roots da_alpha_dTs zs : Fin N → ℝ)
    (kijs : Fin N → Fin N → ℝ) : ℝ :=
  ∑ i, -(0.5 * ((-da_alpha_dTs i - da_alpha_dTs i) * (zs i * zs i)
    + (workingd1 a_alphas a_alpha_i_roots da_alpha_dTs zs kijs i
      + workingd1 a_alphas a_alpha_i_roots da_alpha_dTs zs kijs i)))

/-- The running sum workings2 of a_alpha_and_derivatives_quadratic_terms at
the end of the inner loop for row i (lines 345-354): the off-diagonal
second-derivative contributions, with v0_inv = 1/(roots[i]*roots[j]) and
v1 = (kijs[i][j]-1)*v0_inv. -/
def workings2 {N : ℕ}
    (a_alphas a_alpha_i_roots da_alpha_dTs d2a_alpha_dT2s zs : Fin N → ℝ)
    (kijs : Fin N → Fin N → ℝ) (i : Fin N) : ℝ :=
  ∑ j ∈ Finset.filter (fun j => j < i) Finset.univ,
    (1 / (a_alpha_i_roots i * a_alpha_i_roots j))
      * (1 / (a_alpha_i_roots i * a_alpha_i_roots j))
      * ((kijs i j - 1) * (1 / (a_alpha_i_roots i * a_alpha_i_roots j)))
      * (a_alphas i * a_alphas j
          * (-0.5 * (a_alphas i * d2a_alpha_dT2s j + a_alphas j * d2a_alpha_dT2s i)
            - da_alpha_dTs i * da_alpha_dTs j)
        + 0.25 * (a_alphas i * da_alpha_dTs j + a_alphas j * da_alpha_dTs i)
          * (a_alphas i * da_alpha_dTs j + a_alphas j * da_alpha_dTs i))
      * (zs i * zs j)

/-- The scalar d2a_alpha_dT2 accumulated by
a_alpha_and_derivatives_quadratic_terms (line 367): per row i the diagonal
term d2[i]*zs[i]*zs[i] plus twice workings2. -/
def d2a_alpha_dT2_quad {N : ℕ}
    (a_alphas a_alpha_i_roots da_alpha_dTs d2a_alpha_dT2s zs : Fin N → ℝ)
    (kijs : Fin N → Fin N → ℝ) : ℝ :=
  ∑ i, (d2a_alpha_dT2s i * (zs i * zs i)
    + (workings2 a_alphas a_alpha_i_roots da_alpha_dTs d2a_alpha_dT2s zs kijs i
      + workings2 a_alphas a_alpha_i_roots da_alpha_dTs d2a_alpha_dT2s zs kijs i))

/-- Splitting a sum over the indices j with i ≤ j into the diagonal term and
the indices with i < j. -/
theorem sum_filter_le_split {N : ℕ} (i : Fin N) (f : Fin N → ℝ) :
    ∑ j ∈ Finset.filter (fun j => i ≤ j) Finset.univ, f j
      = f i + ∑ j ∈ Finset.filter (fun j => i < j) Finset.univ, f j := by
  have h : Finset.filter (fun j => i ≤ j) Finset.univ
      = insert i (Finset.filter (fun j => i < j) Finset.univ) := by
    ext x
    simp only [Finset.mem_filter, Finset.mem_insert, Finset.mem_univ, true_and]
    rw [le_iff_lt_or_eq]
    constructor
    · rintro (h | h)
      exacts [Or.inr h, Or.inl h.symm]
    · rintro (h | h)
      exacts [Or.inr h.symm, Or.inl h]
  rw [h, Finset.sum_insert (by simp)]

/-- Splitting a sum over all indices into those below i, the diagonal term,
and those above i. -/
theorem sum_tri_split {N : ℕ} (i : Fin N) (f : Fin N → ℝ) :
    ∑ j, f j = (∑ j ∈ Finset.filter (fun j => j < i) Finset.univ, f j)
      + (f i + ∑ j ∈ Finset.filter (fun j => i < j) Finset.univ, f j) := by
  rw [← Finset.sum_filter_add_sum_filter_not Finset.univ (fun j => j < i) f]
  congr 1
  rw [show Finset.filter (fun j => ¬ j < i) Finset.univ
      = Finset.filter (fun j => i ≤ j) Finset.univ from
    Finset.filter_congr (fun x _ => by simp [not_lt])]
  exact sum_filter_le_split i f

/-- Exchanging a sum over the strict upper triangle for a sum over the
strict lower triangle. -/
theorem sum_lt_swap {N : ℕ} (f : Fin N → Fin N → ℝ) :
    ∑ i, ∑ j ∈ Finset.filter (fun j => i < j) Finset.univ, f i j
      = ∑ i, ∑ j ∈ Finset.filter (fun j => j < i) Finset.univ, f j i := by
  simp only [Finset.sum_filter]
  exact Finset.sum_comm

/-- C1: for every list of non-negative attractive terms and every symmetric
kijs matrix, a_alpha_aijs_composition_independent returns the pairwise matrix
whose entry (i, j) is (1 - kijs[i][j]) * sqrt(a_alphas[i] * a_alphas[j]) and
the per-component root vector whose entry i is sqrt(a_alphas[i]). -/
theorem C1_a_alpha_aijs_entries {N : ℕ} (a_alphas : Fin N → ℝ)
    (kijs : Fin N → Fin N → ℝ) (hnn : ∀ i, 0 ≤ a_alphas i)
    (hsym : ∀ i j, kijs i j = kijs j i) :
    (∀ i j, a_alpha_ijs a_alphas kijs i j
        = (1 - kijs i j) * Real.sqrt (a_alphas i * a_alphas j)) ∧
    (∀ i, a_alpha_i_roots a_alphas i = Real.sqrt (a_alphas i)) := by
  refine ⟨fun i j => ?_, fun i => rfl⟩
  simp only [a_alpha_ijs]
  by_cases h : i ≤ j
  · rw [if_pos h, Real.sqrt_mul (hnn i)]
  · rw [if_neg h, hsym j i, Real.sqrt_mul (hnn i)]
    ring

/-- Concrete instance of C1 at a one-component system with attractive term 4
and zero binary interaction coefficient. -/
theorem C1_witness :
    a_alpha_ijs (fun _ : Fin 1 => (4 : ℝ)) (fun _ _ => 0) 0 0
      = (1 - 0) * Real.sqrt (4 * 4) ∧
    a_alpha_i_roots (fun _ : Fin 1 => (4 : ℝ)) 0 = Real.sqrt 4 :=
  ⟨(C1_a_alpha_aijs_entries (fun _ : Fin 1 => (4 : ℝ)) (fun _ _ => 0)
      (fun _ => zero_le_four) (fun _ _ => rfl)).1 0 0,
   (C1_a_alpha_aijs_entries (fun _ : Fin 1 => (4 : ℝ)) (fun _ _ => 0)
      (fun _ => zero_le_four) (fun _ _ => rfl)).2 0⟩

/-- C9: for every a_alphas and every kijs matrix, symmetric or not, the
pairwise matrix returned by a_alpha_aijs_composition_independent and by the
support_zeros variant is exactly symmetric, because only the entries with
j ≥ i are read and each computed value is written to both mirror
positions. -/
theorem C9_a_alpha_ijs_symmetric {N : ℕ} (a_alphas : Fin N → ℝ)
    (kijs : Fin N → Fin N → ℝ) (i j : Fin N) :
    a_alpha_ijs a_alphas kijs i j = a_alpha_ijs a_alphas kijs j i ∧
    a_alpha_ijs_sz a_alphas kijs i j = a_alpha_ijs_sz a_alphas kijs j i := by
  have h : a_alpha_ijs a_alphas kijs i j = a_alpha_ijs a_alphas kijs j i := by
    simp only [a_alpha_ijs]
    rcases le_or_lt i j with h1 | h1
    · rcases eq_or_lt_of_le h1 with rfl | h2
      · rfl
      · rw [if_pos h1, if_neg (not_le.mpr h2)]
    · rw [if_neg (not_le.mpr h1), if_pos h1.le]
  exact ⟨h, h⟩

/-- C10: the reciprocal-root matrix is populated only at positions with
j ≥ i; every strictly-lower-triangle entry keeps the initial 0.0 in both the
plain builder and the support_zeros variant, so, unlike the pairwise matrix,
it is not symmetric (witnessed at a two-component system with unit
attractive terms). -/
theorem C10_roots_inv_lower_triangle :
    (∀ {N : ℕ} (a_alphas : Fin N → ℝ) (i j : Fin N), j < i →
      a_alpha_ij_roots_inv a_alphas i j = 0 ∧
      a_alpha_ij_roots_inv_sz a_alphas i j = 0) ∧
    a_alpha_ij_roots_inv (fun _ : Fin 2 => (1 : ℝ)) 1 0
      ≠ a_alpha_ij_roots_inv (fun _ : Fin 2 => (1 : ℝ)) 0 1 := by
  constructor
  · intro N a_alphas i j hlt
    have h : ¬ i ≤ j := not_le.mpr hlt
    exact ⟨by simp [a_alpha_ij_roots_inv, h], by simp [a_alpha_ij_roots_inv_sz, h]⟩
  · have h10 : ¬ (1 : Fin 2) ≤ 0 := by decide
    have h01 : (0 : Fin 2) ≤ 1 := by decide
    simp [a_alpha_ij_roots_inv, h10, h01, Real.sqrt_one]

/-- Concrete instance of the C10 lower-triangle property at a two-component
system. -/
theorem C10_witness :
    a_alpha_ij_roots_inv (fun _ : Fin 2 => (2 : ℝ)) 1 0 = 0 ∧
    a_alpha_ij_roots_inv_sz (fun _ : Fin 2 => (2 : ℝ)) 1 0 = 0 :=
  C10_roots_inv_lower_triangle.1 (fun _ : Fin 2 => (2 : ℝ)) 1 0 (by decide)

/-- C6: on inputs where a pairwise product of roots is exactly zero, the
support_zeros variant stores the sentinel 1e100 as that pair's stored
reciprocal-root entry instead of dividing by zero; on inputs where no
pairwise product is zero it returns exactly the same three outputs as
a_alpha_aijs_composition_independent. -/
theorem C6_support_zeros {N : ℕ} (a_alphas : Fin N → ℝ)
    (kijs : Fin N → Fin N → ℝ) :
    (∀ i j : Fin N, i ≤ j →
      Real.sqrt (a_alphas i) * Real.sqrt (a_alphas j) = 0 →
      a_alpha_ij_roots_inv_sz a_alphas i j = 1e100) ∧
    ((∀ i j : Fin N, Real.sqrt (a_alphas i) * Real.sqrt (a_alphas j) ≠ 0) →
      a_alpha_ijs_sz a_alphas kijs = a_alpha_ijs a_alphas kijs ∧
      a_alpha_i_roots_sz a_alphas = a_alpha_i_roots a_alphas ∧
      a_alpha_ij_roots_inv_sz a_alphas = a_alpha_ij_roots_inv a_alphas) := by
  constructor
  · intro i j hle hz
    simp [a_alpha_ij_roots_inv_sz, hle, hz]
  · intro h
    refine ⟨rfl, rfl, ?_⟩
    funext i j
    by_cases hle : i ≤ j
    · simp [a_alpha_ij_roots_inv_sz, a_alpha_ij_roots_inv, hle, h i j]
    · simp [a_alpha_ij_roots_inv_sz, a_alpha_ij_roots_inv, hle]

/-- Concrete instances of C6: the sentinel at a zero attractive term, and
output agreement at a nonzero one. -/
theorem C6_witness :
    a_alpha_ij_roots_inv_sz (fun _ : Fin 1 => (0 : ℝ)) 0 0 = 1e100 ∧
    a_alpha_ij_roots_inv_sz (fun _ : Fin 1 => (1 : ℝ))
      = a_alpha_ij_roots_inv (fun _ : Fin 1 => (1 : ℝ)) :=
  ⟨(C6_support_zeros (fun _ : Fin 1 => (0 : ℝ)) (fun _ _ => 0)).1 0 0
      (le_refl 0) (by simp),
   ((C6_support_zeros (fun _ : Fin 1 => (1 : ℝ)) (fun _ _ => 0)).2
      (fun i j => by simp)).2.2⟩

/-- C3: PR_lnphis returns, for each component i, the closed-form
Peng-Robinson log fugacity coefficient
(b_i/b)*((Z-1)*2*sqrt2*B + A*ln((Z+B+sqrt2*B)/(Z+B-sqrt2*B)))/(2*sqrt2*B)
- ln(Z-B) - A*ln((Z+B+sqrt2*B)/(Z+B-sqrt2*B))*(2*rowsum_i)/(a_alpha*2*sqrt2*B)
with A = a_alpha*P/(R^2*T^2) and B = b*P/(R*T). -/
theorem C3_PR_lnphis_closed_form {N : ℕ} (T P Z b a_alpha : ℝ)
    (zs bs a_alpha_j_rows : Fin N → ℝ) (i : Fin N) :
    PR_lnphis T P Z b a_alpha zs bs a_alpha_j_rows i
      = (bs i / b) * ((Z - 1) * (2 * Real.sqrt 2 * (b * P / (R * T)))
            + (a_alpha * P / (R ^ 2 * T ^ 2))
              * Real.log ((Z + b * P / (R * T) + Real.sqrt 2 * (b * P / (R * T)))
                  / (Z + b * P / (R * T) - Real.sqrt 2 * (b * P / (R * T)))))
          / (2 * Real.sqrt 2 * (b * P / (R * T)))
        - Real.log (Z - b * P / (R * T))
        - (a_alpha * P / (R ^ 2 * T ^ 2))
            * Real.log ((Z + b * P / (R * T) + Real.sqrt 2 * (b * P / (R * T)))
                / (Z + b * P / (R * T) - Real.sqrt 2 * (b * P / (R * T))))
            * (2 * a_alpha_j_rows i)
          / (a_alpha * (2 * Real.sqrt 2 * (b * P / (R * T)))) := by
  have hB : b * (P * (1 / T)) * R_inv = b * P / (R * T) := by
    rw [R_inv, div_eq_mul_inv (b * P) (R * T), mul_inv]
    ring
  have hA : a_alpha * (P * (1 / T)) * R2_inv * (1 / T)
      = a_alpha * P / (R ^ 2 * T ^ 2) := by
    rw [R2_inv, R_inv, div_eq_mul_inv (a_alpha * P) (R ^ 2 * T ^ 2), mul_inv,
      ← inv_pow, ← inv_pow]
    ring
  simp only [PR_lnphis, root_two]
  rw [hA, hB]
  rw [show Z + b * P / (R * T) + b * P / (R * T) * Real.sqrt 2
      = Z + b * P / (R * T) + Real.sqrt 2 * (b * P / (R * T)) from by ring]
  rw [show Z + b * P / (R * T) - b * P / (R * T) * Real.sqrt 2
      = Z + b * P / (R * T) - Real.sqrt 2 * (b * P / (R * T)) from by ring]
  rw [show b * P / (R * T) * Real.sqrt 2 + b * P / (R * T) * Real.sqrt 2
      = 2 * Real.sqrt 2 * (b * P / (R * T)) from by ring]
  generalize (a_alpha * P / (R ^ 2 * T ^ 2)) = A
  generalize (2 * Real.sqrt 2 * (b * P / (R * T))) = tB
  generalize Real.log ((Z + b * P / (R * T) + Real.sqrt 2 * (b * P / (R * T)))
      / (Z + b * P / (R * T) - Real.sqrt 2 * (b * P / (R * T)))) = L
  simp only [div_eq_mul_inv, mul_inv]
  ring

/-- C4 as stated fails: at b = 2 and solver roots (1, 5, 3), the liquid
branch keeps V0 = 1, which does not exceed b although the root 3 does, so
the volume used is not the smallest root exceeding b. -/
theorem C4_counterexample :
    PR_select_root true false 2 1 5 3 = some 1 ∧ (2 : ℝ) < 3 ∧ ¬ (2 : ℝ) < 1 := by
  refine ⟨?_, by norm_num, by norm_num⟩
  norm_num [PR_select_root]

/-- C4 (amended): provided the sentinel check V1 ≠ 0 passes and the first
solver root V0 itself exceeds b, the selection of PR_lnphis_fastest with the
liquid flag returns the smallest of the three roots exceeding b, and with
the gas flag the largest of the three roots exceeding b. -/
theorem C4_root_selection (g : Bool) (b V0 V1 V2 : ℝ) (h1 : V1 ≠ 0)
    (h0 : b < V0) :
    (∃ V, PR_select_root true g b V0 V1 V2 = some V ∧
      (V = V0 ∨ V = V1 ∨ V = V2) ∧ b < V ∧ V ≤ V0 ∧
      (b < V1 → V ≤ V1) ∧ (b < V2 → V ≤ V2)) ∧
    (∃ V, PR_select_root false true b V0 V1 V2 = some V ∧
      (V = V0 ∨ V = V1 ∨ V = V2) ∧ b < V ∧ V0 ≤ V ∧
      (b < V1 → V1 ≤ V) ∧ (b < V2 → V2 ≤ V)) := by
  constructor
  · have hl : PR_select_root true g b V0 V1 V2
        = some (if (if V0 > V1 ∧ V1 > b then V1 else V0) > V2 ∧ V2 > b then V2
                else (if V0 > V1 ∧ V1 > b then V1 else V0)) := by
      simp [PR_select_root, h1]
    rw [hl]
    by_cases hc1 : V0 > V1 ∧ V1 > b
    · rw [if_pos hc1]
      by_cases hc2 : V1 > V2 ∧ V2 > b
      · rw [if_pos hc2]
        exact ⟨V2, rfl, Or.inr (Or.inr rfl), hc2.2,
          le_of_lt (lt_trans hc2.1 hc1.1), fun _ => le_of_lt hc2.1,
          fun _ => le_refl _⟩
      · rw [if_neg hc2]
        exact ⟨V1, rfl, Or.inr (Or.inl rfl), hc1.2, le_of_lt hc1.1,
          fun _ => le_refl _,
          fun h2 => le_of_not_lt (fun hx => hc2 ⟨hx, h2⟩)⟩
    · rw [if_neg hc1]
      by_cases hc2 : V0 > V2 ∧ V2 > b
      · rw [if_pos hc2]
        refine ⟨V2, rfl, Or.inr (Or.inr rfl), hc2.2, le_of_lt hc2.1,
          fun hb1 => ?_, fun _ => le_refl _⟩
        exact le_trans (le_of_lt hc2.1) (le_of_not_lt (fun hx => hc1 ⟨hx, hb1⟩))
      · rw [if_neg hc2]
        exact ⟨V0, rfl, Or.inl rfl, h0, le_refl _,
          fun hb1 => le_of_not_lt (fun hx => hc1 ⟨hx, hb1⟩),
          fun hb2 => le_of_not_lt (fun hx => hc2 ⟨hx, hb2⟩)⟩
  · have hg : PR_select_root false true b V0 V1 V2
        = some (if (if V0 < V1 ∧ V1 > b then V1 else V0) < V2 ∧ V2 > b then V2
                else (if V0 < V1 ∧ V1 > b then V1 else V0)) := by
      simp [PR_select_root, h1]
    rw [hg]
    by_cases hc1 : V0 < V1 ∧ V1 > b
    · rw [if_pos hc1]
      by_cases hc2 : V1 < V2 ∧ V2 > b
      · rw [if_pos hc2]
        exact ⟨V2, rfl, Or.inr (Or.inr rfl), hc2.2,
          le_of_lt (lt_trans hc1.1 hc2.1), fun _ => le_of_lt hc2.1,
          fun _ => le_refl _⟩
      · rw [if_neg hc2]
        exact ⟨V1, rfl, Or.inr (Or.inl rfl), hc1.2, le_of_lt hc1.1,
          fun _ => le_refl _,
          fun h2 => le_of_not_lt (fun hx => hc2 ⟨hx, h2⟩)⟩
    · rw [if_neg hc1]
      by_cases hc2 : V0 < V2 ∧ V2 > b
      · rw [if_pos hc2]
        refine ⟨V2, rfl, Or.inr (Or.inr rfl), hc2.2, le_of_lt hc2.1,
          fun hb1 => ?_, fun _ => le_refl _⟩
        exact le_trans (le_of_not_lt (fun hx => hc1 ⟨hx, hb1⟩)) (le_of_lt hc2.1)
      · rw [if_neg hc2]
        exact ⟨V0, rfl, Or.inl rfl, h0, le_refl _,
          fun hb1 => le_of_not_lt (fun hx => hc1 ⟨hx, hb1⟩),
          fun hb2 => le_of_not_lt (fun hx => hc2 ⟨hx, hb2⟩)⟩

/-- Concrete instance of the amended C4 at b = 0 and roots (1, 2, 3). -/
theorem C4_witness :
    (∃ V, PR_select_root true false 0 1 2 3 = some V ∧
      (V = 1 ∨ V = 2 ∨ V = 3) ∧ (0 : ℝ) < V ∧ V ≤ 1 ∧
      ((0 : ℝ) < 2 → V ≤ 2) ∧ ((0 : ℝ) < 3 → V ≤ 3)) ∧
    (∃ V, PR_select_root false true 0 1 2 3 = some V ∧
      (V = 1 ∨ V = 2 ∨ V = 3) ∧ (0 : ℝ) < V ∧ 1 ≤ V ∧
      ((0 : ℝ) < 2 → 2 ≤ V) ∧ ((0 : ℝ) < 3 → 3 ≤ V)) :=
  C4_root_selection false 0 1 2 3 two_ne_zero zero_lt_one

/-- C5: PR_lnphis_fastest with both root flags false always raises the
invalid-input ValueError and returns no fugacity-coefficient vector, and
with exactly one flag true the error branch is never taken. -/
theorem C5_root_flag_error {N : ℕ}
    (solver : ℝ → ℝ → ℝ → ℝ → ℝ → ℝ → ℝ × ℝ × ℝ)
    (zs : Fin N → ℝ) (T P : ℝ) (kijs : Fin N → Fin N → ℝ)
    (ais bs a_alphas a_alpha_i_roots kappas : Fin N → ℝ) :
    PR_lnphis_fastest solver zs T P kijs false false
        ais bs a_alphas a_alpha_i_roots kappas = none ∧
    (PR_lnphis_fastest solver zs T P kijs true false
        ais bs a_alphas a_alpha_i_roots kappas).isSome = true ∧
    (PR_lnphis_fastest solver zs T P kijs false true
        ais bs a_alphas a_alpha_i_roots kappas).isSome = true := by
  refine ⟨?_, ?_, ?_⟩ <;> simp [PR_lnphis_fastest, PR_select_root]

/-- C7: for non-negative a_alphas, precomputed roots sqrt(a_alphas[i]), and
a symmetric zero-diagonal kijs, a_alpha_quadratic_terms returns the double
sum of zs[i]*zs[j]*(1-kijs[i][j])*sqrt(a_alphas[i]*a_alphas[j]) and the row
vector whose entry i is the sum over j of
zs[j]*(1-kijs[i][j])*sqrt(a_alphas[i]*a_alphas[j]). -/
theorem C7_quadratic_terms {N : ℕ} (a_alphas zs : Fin N → ℝ)
    (kijs : Fin N → Fin N → ℝ) (T : ℝ) (hnn : ∀ i, 0 ≤ a_alphas i)
    (hsym : ∀ i j, kijs i j = kijs j i) (hdiag : ∀ i, kijs i i = 0) :
    (a_alpha_quadratic_terms a_alphas (fun i => Real.sqrt (a_alphas i))
        T zs kijs).1
      = (∑ i, ∑ j, zs i * zs j
          * ((1 - kijs i j) * Real.sqrt (a_alphas i * a_alphas j))) ∧
    ∀ i, (a_alpha_quadratic_terms a_alphas (fun i => Real.sqrt (a_alphas i))
        T zs kijs).2 i
      = ∑ j, zs j * ((1 - kijs i j) * Real.sqrt (a_alphas i * a_alphas j)) := by
  have hrows : ∀ i,
      a_alpha_quadratic_rows a_alphas (fun i => Real.sqrt (a_alphas i)) zs kijs i
        = ∑ j, zs j * ((1 - kijs i j) * Real.sqrt (a_alphas i * a_alphas j)) := by
    intro i
    rw [sum_tri_split i
      (fun j => zs j * ((1 - kijs i j) * Real.sqrt (a_alphas i * a_alphas j)))]
    simp only [a_alpha_quadratic_rows]
    rw [add_mul, Finset.sum_mul, Finset.sum_mul]
    have e1 : ∑ j ∈ Finset.filter (fun j => j < i) Finset.univ,
        (1 - kijs i j) * (Real.sqrt (a_alphas j) * zs j) * Real.sqrt (a_alphas i)
        = ∑ j ∈ Finset.filter (fun j => j < i) Finset.univ,
          zs j * ((1 - kijs i j) * Real.sqrt (a_alphas i * a_alphas j)) := by
      refine Finset.sum_congr rfl (fun j _ => ?_)
      rw [Real.sqrt_mul (hnn i)]
      ring
    have e2 : ∑ j ∈ Finset.filter (fun j => i < j) Finset.univ,
        (1 - kijs j i) * (Real.sqrt (a_alphas j) * zs j) * Real.sqrt (a_alphas i)
        = ∑ j ∈ Finset.filter (fun j => i < j) Finset.univ,
          zs j * ((1 - kijs i j) * Real.sqrt (a_alphas i * a_alphas j)) := by
      refine Finset.sum_congr rfl (fun j _ => ?_)
      rw [hsym j i, Real.sqrt_mul (hnn i)]
      ring
    have e0 : (1 - kijs i i) * a_alphas i * zs i
        = zs i * ((1 - kijs i i) * Real.sqrt (a_alphas i * a_alphas i)) := by
      rw [Real.sqrt_mul_self (hnn i)]
      ring
    rw [e1, e2, e0]
    ring
  refine ⟨?_, fun i => hrows i⟩
  show a_alpha_quadratic_total a_alphas (fun i => Real.sqrt (a_alphas i)) zs kijs
      = _
  simp only [a_alpha_quadratic_total]
  refine Finset.sum_congr rfl (fun i _ => ?_)
  rw [hrows i, Finset.sum_mul]
  refine Finset.sum_congr rfl (fun j _ => ?_)
  ring

/-- Concrete instance of C7 at a one-component system with unit attractive
term and mole fraction. -/
theorem C7_witness :
    (a_alpha_quadratic_terms (fun _ : Fin 1 => (1 : ℝ))
        (fun _ : Fin 1 => Real.sqrt 1) 300 (fun _ => 1) (fun _ _ => 0)).1
      = (∑ _i : Fin 1, ∑ _j : Fin 1, 1 * 1 * ((1 - 0) * Real.sqrt (1 * 1))) ∧
    (a_alpha_quadratic_terms (fun _ : Fin 1 => (1 : ℝ))
        (fun _ : Fin 1 => Real.sqrt 1) 300 (fun _ => 1) (fun _ _ => 0)).2 0
      = ∑ _j : Fin 1, 1 * ((1 - 0) * Real.sqrt (1 * 1)) :=
  ⟨(C7_quadratic_terms (fun _ : Fin 1 => (1 : ℝ)) (fun _ => 1) (fun _ _ => 0)
      300 (fun _ => zero_le_one) (fun _ _ => rfl) (fun _ => rfl)).1,
   (C7_quadratic_terms (fun _ : Fin 1 => (1 : ℝ)) (fun _ => 1) (fun _ _ => 0)
      300 (fun _ => zero_le_one) (fun _ _ => rfl) (fun _ => rfl)).2 0⟩

/-- An asymmetric zero-diagonal binary-interaction matrix used to refute C2
as stated. -/
def kasym : Fin 2 → Fin 2 → ℝ := fun i j => if i = 0 ∧ j = 1 then 1 else 0

/-- C2 as stated fails: a zero-diagonal kijs that is not symmetric makes the
double-sum form (which reads the upper triangle) and the quadratic-terms
form (which reads the lower triangle) return different mixture a_alpha
values on identical inputs. -/
theorem C2_counterexample :
    (∀ i : Fin 2, kasym i i = 0) ∧
    a_alpha_full (fun _ : Fin 2 => 1) (fun _ => 1) kasym
      ≠ a_alpha_quad (fun _ : Fin 2 => 1) (fun _ : Fin 2 => Real.sqrt 1)
          (fun _ => 1) kasym := by
  constructor
  · intro i
    fin_cases i <;> norm_num [kasym]
  · have h1 : a_alpha_full (fun _ : Fin 2 => (1 : ℝ)) (fun _ => 1) kasym = 2 := by
      norm_num [a_alpha_full, a_alpha_ijs, kasym, Finset.sum_filter,
        Fin.sum_univ_two, Real.sqrt_one,
        show ¬ (0 : Fin 2) < 0 from by decide,
        show ¬ (1 : Fin 2) < 0 from by decide,
        show (0 : Fin 2) < 1 from by decide,
        show ¬ (1 : Fin 2) < 1 from by decide,
        show ¬ (1 : Fin 2) ≤ 0 from by decide,
        show (0 : Fin 2) ≤ 1 from by decide,
        show (0 : Fin 2) ≠ 1 from by decide,
        show (1 : Fin 2) ≠ 0 from by decide]
    have h2 : a_alpha_quad (fun _ : Fin 2 => (1 : ℝ))
        (fun _ : Fin 2 => Real.sqrt 1) (fun _ => 1) kasym = 4 := by
      norm_num [a_alpha_quad, kasym, Finset.sum_filter, Fin.sum_univ_two,
        Real.sqrt_one,
        show ¬ (0 : Fin 2) < 0 from by decide,
        show ¬ (1 : Fin 2) < 0 from by decide,
        show (0 : Fin 2) < 1 from by decide,
        show ¬ (1 : Fin 2) < 1 from by decide,
        show (0 : Fin 2) ≠ 1 from by decide,
        show (1 : Fin 2) ≠ 0 from by decide]
    rw [h1, h2]
    norm_num

/-- C2 (amended): for identical inputs with strictly positive attractive
terms and a symmetric zero-diagonal kijs, a_alpha_and_derivatives_full and
a_alpha_and_derivatives_quadratic_terms return equal values of the mixture
a_alpha, of da_alpha_dT, and of d2a_alpha_dT2, the quadratic form taking
the precomputed roots sqrt(a_alphas[i]). -/
theorem C2_full_quadratic_agree {N : ℕ}
    (a_alphas da_alpha_dTs d2a_alpha_dT2s zs : Fin N → ℝ)
    (kijs : Fin N → Fin N → ℝ) (hpos : ∀ i, 0 < a_alphas i)
    (hsym : ∀ i j, kijs i j = kijs j i) (hdiag : ∀ i, kijs i i = 0) :
    a_alpha_full a_alphas zs kijs
      = a_alpha_quad a_alphas (fun i => Real.sqrt (a_alphas i)) zs kijs ∧
    da_alpha_dT_full a_alphas da_alpha_dTs zs kijs
      = da_alpha_dT_quad a_alphas (fun i => Real.sqrt (a_alphas i))
          da_alpha_dTs zs kijs ∧
    d2a_alpha_dT2_full a_alphas da_alpha_dTs d2a_alpha_dT2s zs kijs
      = d2a_alpha_dT2_quad a_alphas (fun i => Real.sqrt (a_alphas i))
          da_alpha_dTs d2a_alpha_dT2s zs kijs := by
  have hane : ∀ i, a_alphas i ≠ 0 := fun i => ne_of_gt (hpos i)
  have hsq0 : ∀ i, Real.sqrt (a_alphas i) ≠ 0 :=
    fun i => Real.sqrt_ne_zero'.mpr (hpos i)
  have hss : ∀ i, Real.sqrt (a_alphas i) * Real.sqrt (a_alphas i) = a_alphas i :=
    fun i => Real.mul_self_sqrt (hpos i).le
  refine ⟨?_, ?_, ?_⟩
  · simp only [a_alpha_full, a_alpha_quad]
    refine Finset.sum_congr rfl (fun i _ => ?_)
    congr 1
    · refine Finset.sum_congr rfl (fun j hj => ?_)
      have hj' : j < i := (Finset.mem_filter.mp hj).2
      have hnle : ¬ i ≤ j := not_le.mpr hj'
      simp only [a_alpha_ijs, if_neg hnle]
      rw [hsym j i]
      ring
    · simp only [a_alpha_ijs]
      rw [if_pos (le_refl i), hdiag i, hss i]
      ring
  · have hL : da_alpha_dT_full a_alphas da_alpha_dTs zs kijs
        = ∑ i, (da_full_term a_alphas da_alpha_dTs zs kijs i i
          + ∑ j ∈ Finset.filter (fun j => i < j) Finset.univ,
            (da_full_term a_alphas da_alpha_dTs zs kijs i j
              + da_full_term a_alphas da_alpha_dTs zs kijs i j)) := by
      simp only [da_alpha_dT_full]
      refine Finset.sum_congr rfl (fun i _ => ?_)
      rw [sum_filter_le_split i (fun j =>
        if i = j then da_full_term a_alphas da_alpha_dTs zs kijs i j
        else da_full_term a_alphas da_alpha_dTs zs kijs i j
          + da_full_term a_alphas da_alpha_dTs zs kijs i j)]
      congr 1
      · simp
      · refine Finset.sum_congr rfl (fun j hj => ?_)
        have hj' : i < j := (Finset.mem_filter.mp hj).2
        rw [if_neg (ne_of_lt hj')]
    have hR : da_alpha_dT_quad a_alphas (fun i => Real.sqrt (a_alphas i))
          da_alpha_dTs zs kijs
        = ∑ i, (da_alpha_dTs i * (zs i * zs i)
          + ∑ j ∈ Finset.filter (fun j => j < i) Finset.univ,
            -((a_alphas i * da_alpha_dTs j + a_alphas j * da_alpha_dTs i)
              * ((kijs i j - 1)
                * (1 / (Real.sqrt (a_alphas i) * Real.sqrt (a_alphas j))))
              * (zs i * zs j))) := by
      simp only [da_alpha_dT_quad, workingd1]
      refine Finset.sum_congr rfl (fun i _ => ?_)
      rw [Finset.sum_neg_distrib]
      ring
    rw [hL, hR, Finset.sum_add_distrib, Finset.sum_add_distrib]
    congr 1
    · refine Finset.sum_congr rfl (fun i _ => ?_)
      simp only [da_full_term, a_alpha_ij_roots_inv]
      rw [if_pos (le_refl i), hdiag i, hss i]
      field_simp
      rw [div_eq_iff (hane i)]
      ring
    · rw [sum_lt_swap (fun i j => da_full_term a_alphas da_alpha_dTs zs kijs i j
        + da_full_term a_alphas da_alpha_dTs zs kijs i j)]
      refine Finset.sum_congr rfl (fun i _ => ?_)
      refine Finset.sum_congr rfl (fun j hj => ?_)
      have hj' : j < i := (Finset.mem_filter.mp hj).2
      simp only [da_full_term, a_alpha_ij_roots_inv]
      rw [if_pos (le_of_lt hj'), hsym j i,
        mul_comm (Real.sqrt (a_alphas j)) (Real.sqrt (a_alphas i))]
      ring
  · have hL2 : d2a_alpha_dT2_full a_alphas da_alpha_dTs d2a_alpha_dT2s zs kijs
        = ∑ i, (d2_full_term a_alphas da_alpha_dTs d2a_alpha_dT2s zs kijs i i
          + ∑ j ∈ Finset.filter (fun j => i < j) Finset.univ,
            (d2_full_term a_alphas da_alpha_dTs d2a_alpha_dT2s zs kijs i j
              + d2_full_term a_alphas da_alpha_dTs d2a_alpha_dT2s zs kijs i j)) := by
      simp only [d2a_alpha_dT2_full]
      refine Finset.sum_congr rfl (fun i _ => ?_)
      rw [sum_filter_le_split i (fun j =>
        if i = j then d2_full_term a_alphas da_alpha_dTs d2a_alpha_dT2s zs kijs i j
        else d2_full_term a_alphas da_alpha_dTs d2a_alpha_dT2s zs kijs i j
          + d2_full_term a_alphas da_alpha_dTs d2a_alpha_dT2s zs kijs i j)]
      congr 1
      · simp
      · refine Finset.sum_congr rfl (fun j hj => ?_)
        have hj' : i < j := (Finset.mem_filter.mp hj).2
        rw [if_neg (ne_of_lt hj')]
    have hR2 : d2a_alpha_dT2_quad a_alphas (fun i => Real.sqrt (a_alphas i))
          da_alpha_dTs d2a_alpha_dT2s zs kijs
        = ∑ i, (d2a_alpha_dT2s i * (zs i * zs i)
          + ∑ j ∈ Finset.filter (fun j => j < i) Finset.univ,
            ((1 / (Real.sqrt (a_alphas i) * Real.sqrt (a_alphas j)))
                * (1 / (Real.sqrt (a_alphas i) * Real.sqrt (a_alphas j)))
                * ((kijs i j - 1)
                  * (1 / (Real.sqrt (a_alphas i) * Real.sqrt (a_alphas j))))
                * (a_alphas i * a_alphas j
                    * (-0.5 * (a_alphas i * d2a_alpha_dT2s j
                        + a_alphas j * d2a_alpha_dT2s i)
                      - da_alpha_dTs i * da_alpha_dTs j)
                  + 0.25 * (a_alphas i * da_alpha_dTs j
                      + a_alphas j * da_alpha_dTs i)
                    * (a_alphas i * da_alpha_dTs j
                      + a_alphas j * da_alpha_dTs i))
                * (zs i * zs j)
              + (1 / (Real.sqrt (a_alphas i) * Real.sqrt (a_alphas j)))
                * (1 / (Real.sqrt (a_alphas i) * Real.sqrt (a_alphas j)))
                * ((kijs i j - 1)
                  * (1 / (Real.sqrt (a_alphas i) * Real.sqrt (a_alphas j))))
                * (a_alphas i * a_alphas j
                    * (-0.5 * (a_alphas i * d2a_alpha_dT2s j
                        + a_alphas j * d2a_alpha_dT2s i)
                      - da_alpha_dTs i * da_alpha_dTs j)
                  + 0.25 * (a_alphas i * da_alpha_dTs j
                      + a_alphas j * da_alpha_dTs i)
                    * (a_alphas i * da_alpha_dTs j
                      + a_alphas j * da_alpha_dTs i))
                * (zs i * zs j))) := by
      simp only [d2a_alpha_dT2_quad, workings2]
      refine Finset.sum_congr rfl (fun i _ => ?_)
      rw [← Finset.sum_add_distrib]
    rw [hL2, hR2, Finset.sum_add_distrib, Finset.sum_add_distrib]
    congr 1
    · refine Finset.sum_congr rfl (fun i _ => ?_)
      simp only [d2_full_term, a_alpha_ij_roots_inv]
      rw [if_pos (le_refl i), hdiag i, hss i]
      field_simp
      rw [div_eq_iff (mul_ne_zero (hane i) (mul_ne_zero (hane i) (hane i)))]
      ring
    · rw [sum_lt_swap (fun i j =>
        d2_full_term a_alphas da_alpha_dTs d2a_alpha_dT2s zs kijs i j
          + d2_full_term a_alphas da_alpha_dTs d2a_alpha_dT2s zs kijs i j)]
      refine Finset.sum_congr rfl (fun i _ => ?_)
      refine Finset.sum_congr rfl (fun j hj => ?_)
      have hj' : j < i := (Finset.mem_filter.mp hj).2
      simp only [d2_full_term, a_alpha_ij_roots_inv]
      rw [if_pos (le_of_lt hj'), hsym j i]
      generalize hsi : Real.sqrt (a_alphas i) = s
      generalize htj : Real.sqrt (a_alphas j) = t
      have hs0 : s ≠ 0 := hsi ▸ hsq0 i
      have ht0 : t ≠ 0 := htj ▸ hsq0 j
      have hai : a_alphas i = s * s := by rw [← hsi]; exact (hss i).symm
      have haj : a_alphas j = t * t := by rw [← htj]; exact (hss j).symm
      rw [hai, haj]
      field_simp
      ring

/-- Concrete instance of the amended C2 at a one-component system. -/
theorem C2_witness :
    a_alpha_full (fun _ : Fin 1 => (1 : ℝ)) (fun _ => 1) (fun _ _ : Fin 1 => (0 : ℝ))
      = a_alpha_quad (fun _ : Fin 1 => (1 : ℝ)) (fun _ : Fin 1 => Real.sqrt 1)
          (fun _ => 1) (fun _ _ : Fin 1 => (0 : ℝ)) ∧
    da_alpha_dT_full (fun _ : Fin 1 => (1 : ℝ)) (fun _ => 1) (fun _ => 1)
        (fun _ _ : Fin 1 => (0 : ℝ))
      = da_alpha_dT_quad (fun _ : Fin 1 => (1 : ℝ)) (fun _ : Fin 1 => Real.sqrt 1)
          (fun _ => 1) (fun _ => 1) (fun _ _ : Fin 1 => (0 : ℝ)) ∧
    d2a_alpha_dT2_full (fun _ : Fin 1 => (1 : ℝ)) (fun _ => 1) (fun _ => 1)
        (fun _ => 1) (fun _ _ : Fin 1 => (0 : ℝ))
      = d2a_alpha_dT2_quad (fun _ : Fin 1 => (1 : ℝ)) (fun _ : Fin 1 => Real.sqrt 1)
          (fun _ => 1) (fun _ => 1) (fun _ => 1) (fun _ _ : Fin 1 => (0 : ℝ)) :=
  C2_full_quadratic_agree (fun _ : Fin 1 => (1 : ℝ)) (fun _ => 1) (fun _ => 1)
    (fun _ => 1) (fun _ _ => 0) (fun _ => zero_lt_one) (fun _ _ => rfl)
    (fun _ => rfl)

end

end Thermo
